import Mathlib

/-!
# cxo: schema reading and the helpers of the data tests

A shallow embedding of

* `skyobjects_old/schema.go`: `Schema`, `ReadSchema`, `Schema.String`, `getField`;
* `skyobject/helpers_test.go`: the sample types `User` and `Group`;
* `data/data_test.go`: `getRootPack`, `testSortedObjects`, `testOrderedPublicKeys`,
  `testDBClose`, `testTvObjects`, `testTvFeeds`, `testTuObjects`, `testTuFeeds`.

Go strings that are identifiers or struct tags are Lean strings, the runes of the Go string;
Go strings that are turned into `[]byte` are the list of their bytes.  A Go panic is the
result `none`.
-/

namespace Cxo

/-! ## The part of Go's `reflect` that `ReadSchema` and `getField` call -/

/-- The values of `reflect.Kind`, in the order of their declaration. -/
inductive Kind where
  | Invalid | Bool | Int | Int8 | Int16 | Int32 | Int64
  | Uint | Uint8 | Uint16 | Uint32 | Uint64 | Uintptr
  | Float32 | Float64 | Complex64 | Complex128
  | Array | Chan | Func | Interface | Map | Ptr | Slice | String | Struct | UnsafePointer
  deriving DecidableEq, Repr

/-- The number a `reflect.Kind` stands for (`Invalid` is 0, `UnsafePointer` is 26). -/
def Kind.toNat : Kind → Nat
  | .Invalid => 0 | .Bool => 1 | .Int => 2 | .Int8 => 3 | .Int16 => 4 | .Int32 => 5
  | .Int64 => 6 | .Uint => 7 | .Uint8 => 8 | .Uint16 => 9 | .Uint32 => 10 | .Uint64 => 11
  | .Uintptr => 12 | .Float32 => 13 | .Float64 => 14 | .Complex64 => 15 | .Complex128 => 16
  | .Array => 17 | .Chan => 18 | .Func => 19 | .Interface => 20 | .Map => 21 | .Ptr => 22
  | .Slice => 23 | .String => 24 | .Struct => 25 | .UnsafePointer => 26

/-- What `getField` observes of the `reflect.Type` of a field: `Name()` and `Kind()`.
`Name` is the empty string for an unnamed type. -/
structure FieldType where
  Name : String
  Kind : Kind
  deriving DecidableEq, Repr

/-- A `reflect.StructField`: the declared name, the tag and the type (Go field `Type`) of one
field. -/
structure ReflectField where
  Name : String
  Tag : String
  Typ : FieldType
  deriving DecidableEq, Repr

/-- The `reflect.Type` of the argument of `ReadSchema`: `Name()`, the name of the type within
its package (empty for an unnamed type); `PkgPath()`, the import path of that package;
`Kind()`; and, for a struct type, the declared fields in declaration order. -/
structure GoType where
  Name : String
  PkgPath : String
  Kind : Kind
  Fields : List ReflectField
  deriving DecidableEq, Repr

/-- A `reflect.Value`: a type together with the bytes the value occupies. -/
structure Value where
  typ : FieldType
  mem : List UInt8
  deriving DecidableEq, Repr

/-- A non-nil `interface{}` value: its dynamic type and, for a struct, the contents of its
fields. -/
structure Sample where
  typ : GoType
  fields : List (List UInt8)
  deriving DecidableEq, Repr

/-- `Type.NumField()`: panics unless the kind is `Struct`. -/
def GoType.NumField (t : GoType) : Option Nat :=
  if t.Kind = Kind.Struct then some t.Fields.length else none

/-- `Type.Field(i)`: panics unless the kind is `Struct` and `i` is in range. -/
def GoType.Field (t : GoType) (i : Nat) : Option ReflectField :=
  if t.Kind = Kind.Struct then t.Fields.get? i else none

/-- `Value.Field(i)` of `reflect.ValueOf(data)`: the value of the i-th field.  Its type is the
declared type of the field; its bytes are those of the field inside the sample. -/
def Sample.Field (v : Sample) (i : Nat) : Option Value :=
  if v.typ.Kind = Kind.Struct then
    (v.typ.Fields.get? i).map (fun f => { typ := f.Typ, mem := v.fields.getD i [] })
  else none

/-- `Value.Type()`. -/
def Value.Typ (v : Value) : FieldType := v.typ

/-! ## `strings.ToLower` -/

/-- The ASCII branch of `strings.ToLower`: `c += 'a' - 'A'` for `'A' <= c && c <= 'Z'`. -/
def lowerASCII (c : Char) : Char :=
  if 65 ≤ c.toNat ∧ c.toNat ≤ 90 then Char.ofNat (c.toNat + 32) else c

/-- The first loop of `strings.ToLower`: no byte is `>= utf8.RuneSelf`. -/
def isASCII (s : String) : Bool := s.data.all (fun c => decide (c.toNat < 128))

/-- `strings.ToLower`.  An ASCII-only string has `A`..`Z` shifted to `a`..`z`; any other
string is mapped rune by rune through `unicode.ToLower`, the table of which is the parameter
`unicodeToLower`. -/
def ToLower (unicodeToLower : Char → Char) (s : String) : String :=
  if isASCII s then String.mk (s.data.map lowerASCII)
  else String.mk (s.data.map unicodeToLower)

/-! ## `schema.go` -/

/-- The `encoder.StructField` of the skycoin encoder. `Kind` is a `uint32`; `Typ` is the Go
field `Type`. -/
structure StructField where
  Name : String
  Kind : Nat
  Typ : String
  Tag : String
  deriving DecidableEq, Repr

/-- Schema represents the type of Hashed item. -/
structure Schema where
  Name : String
  Fields : List StructField
  deriving DecidableEq, Repr

/-- `getField(field, fieldValue)`. -/
def getField (unicodeToLower : Char → Char) (field : ReflectField) (fieldValue : Value) :
    StructField :=
  let fieldType := ToLower unicodeToLower fieldValue.Typ.Name
  { Name := field.Name
    Typ := fieldType
    Tag := field.Tag
    Kind := fieldValue.Typ.Kind.toNat % 2 ^ 32 }

/-- The loop of `ReadSchema`, `for i := 0; i < st.NumField(); i++`: `k` is the number of
iterations left, `st.NumField() - i`.  `tagGet tag key` is `reflect.StructTag.Get`. -/
def ReadSchema.loop (tagGet : String → String → String) (unicodeToLower : Char → Char)
    (st : GoType) (sv : Sample) : Nat → Nat → Schema → Option Schema
  | 0, _, sch => some sch
  | k + 1, i, sch =>
    match st.Field i with
    | none => none
    | some f =>
      if tagGet f.Tag "enc" ≠ "-" then
        match st.Field i, sv.Field i with
        | some f2, some fv =>
          ReadSchema.loop tagGet unicodeToLower st sv k (i + 1)
            { sch with Fields := sch.Fields ++ [getField unicodeToLower f2 fv] }
        | _, _ => none
      else ReadSchema.loop tagGet unicodeToLower st sv k (i + 1) sch

/-- `ReadSchema(data)`: reads the schema from an object.  `data` is `none` for the nil
interface, for which `st.Name()` panics. -/
def ReadSchema (tagGet : String → String → String) (unicodeToLower : Char → Char)
    (data : Option Sample) : Option Schema :=
  match data with
  | none => none
  | some sv =>
    let st := sv.typ
    let sch : Schema := { Name := st.Name, Fields := [] }
    match st.NumField with
    | none => none
    | some n => ReadSchema.loop tagGet unicodeToLower st sv n 0 sch

/-- The loop of `Schema.String`, `for i := 0; i < len(s.Fields); i++`: `k` is the number of
iterations left.  `fieldString` is the `String` method of `encoder.StructField`. -/
def Schema.String.loop (fieldString : StructField → String) (s : Schema) :
    Nat → Nat → List Char → Option (List Char)
  | 0, _, b => some b
  | k + 1, i, b =>
    match s.Fields.get? i with
    | none => none
    | some f => Schema.String.loop fieldString s k (i + 1) (b ++ (fieldString f).data)

/-- `(s *Schema).String()`. -/
def Schema.String (fieldString : StructField → String) (s : Schema) : Option String :=
  let b : List Char := []
  let b := b ++ "struct ".data
  let b := b ++ s.Name.data
  let b := b ++ [Char.ofNat 10]
  (Schema.String.loop fieldString s s.Fields.length 0 b).map String.mk

/-! ## `reflect.StructTag.Get`

The lookup of the Go standard library, on the characters of the tag: the bytes it tests for
(space, colon, double quote, backslash, DEL) are ASCII, so scanning characters and scanning
bytes of a UTF-8 string stop at the same places.  The value that `strconv.Unquote` builds
byte by byte is given by its runes. -/

/-- The double quote. -/
def dquote : Char := Char.ofNat 34

/-- The backslash. -/
def backslash : Char := Char.ofNat 92

/-- Skip leading space: `for i < len(tag) && tag[i] == ' '`. -/
def StructTag.skipSpace : List Char → List Char
  | [] => []
  | c :: t => if c.toNat = 32 then StructTag.skipSpace t else c :: t

/-- Scan to colon: `for i < len(tag) && tag[i] > ' ' && tag[i] != ':' && tag[i] != '"' &&
tag[i] != 0x7f`.  Returns `tag[:i]` and `tag[i:]`. -/
def StructTag.scanName : List Char → List Char × List Char
  | [] => ([], [])
  | c :: t =>
    if 32 < c.toNat ∧ c.toNat ≠ 58 ∧ c.toNat ≠ 34 ∧ c.toNat ≠ 127 then
      ((c :: (StructTag.scanName t).1), (StructTag.scanName t).2)
    else ([], c :: t)

/-- Scan quoted string to find value, from just after the opening quote:
`for i < len(tag) && tag[i] != '"' { if tag[i] == '\\' { i++ }; i++ }`.  `esc` says that the
character before was a backslash.  Returns what stands between the quotes and what follows
the closing quote, or `none` when the tag ends first (`i >= len(tag)`). -/
def StructTag.scanValue : Bool → List Char → Option (List Char × List Char)
  | _, [] => none
  | true, c :: t => (StructTag.scanValue false t).map (fun r => (c :: r.1, r.2))
  | false, c :: t =>
    if c = dquote then some ([], t)
    else if c = backslash then (StructTag.scanValue true t).map (fun r => (c :: r.1, r.2))
    else (StructTag.scanValue false t).map (fun r => (c :: r.1, r.2))

/-- The `unhex` of `strconv`. -/
def unhex (c : Char) : Option Nat :=
  if 48 ≤ c.toNat ∧ c.toNat ≤ 57 then some (c.toNat - 48)
  else if 97 ≤ c.toNat ∧ c.toNat ≤ 102 then some (c.toNat - 97 + 10)
  else if 65 ≤ c.toNat ∧ c.toNat ≤ 70 then some (c.toNat - 65 + 10)
  else none

/-- Read `n` hexadecimal digits: `v = v<<4 | x`. -/
def readHex : Nat → Nat → List Char → Option (Nat × List Char)
  | 0, v, s => some (v, s)
  | _ + 1, _, [] => none
  | n + 1, v, c :: s =>
    match unhex c with
    | none => none
    | some x => readHex n (v * 16 + x) s

/-- Read `n` octal digits: `v = (v << 3) | x`. -/
def readOct : Nat → Nat → List Char → Option (Nat × List Char)
  | 0, v, s => some (v, s)
  | _ + 1, _, [] => none
  | n + 1, v, c :: s =>
    if 48 ≤ c.toNat ∧ c.toNat ≤ 55 then readOct n (v * 8 + (c.toNat - 48)) s else none

/-- The `utf8.ValidRune` of Go. -/
def validRune (v : Nat) : Bool := v < 0xD800 || (0xE000 ≤ v && v ≤ 0x10FFFF)

/-- The `utf8.EncodeRune` of Go: the UTF-8 bytes of a rune, those of U+FFFD for a number
that is no valid rune. -/
def encodeRune (v : Nat) : List Nat :=
  if !validRune v then [0xEF, 0xBF, 0xBD]
  else if v < 0x80 then [v]
  else if v < 0x800 then [0xC0 + v / 64, 0x80 + v % 64]
  else if v < 0x10000 then [0xE0 + v / 4096, 0x80 + v / 64 % 64, 0x80 + v % 64]
  else [0xF0 + v / 262144, 0x80 + v / 4096 % 64, 0x80 + v / 64 % 64, 0x80 + v % 64]

/-- A continuation byte of UTF-8, `0x80` to `0xBF`. -/
def isCont (b : Nat) : Bool := 0x80 ≤ b && b ≤ 0xBF

/-- The `utf8.DecodeRune` of Go: the first rune of a byte sequence and its width; U+FFFD and
width 1 for a byte that begins no well-formed encoding. -/
def decodeRune : List Nat → Nat × Nat
  | [] => (0xFFFD, 0)
  | b0 :: rest =>
    if b0 < 0x80 then (b0, 1)
    else if 0xC2 ≤ b0 ∧ b0 ≤ 0xDF then
      match rest with
      | b1 :: _ => if isCont b1 then ((b0 - 0xC0) * 64 + (b1 - 0x80), 2) else (0xFFFD, 1)
      | _ => (0xFFFD, 1)
    else if 0xE0 ≤ b0 ∧ b0 ≤ 0xEF then
      match rest with
      | b1 :: b2 :: _ =>
        if (if b0 = 0xE0 then 0xA0 else 0x80) ≤ b1 ∧ b1 ≤ (if b0 = 0xED then 0x9F else 0xBF) ∧
            isCont b2 then
          ((b0 - 0xE0) * 4096 + (b1 - 0x80) * 64 + (b2 - 0x80), 3)
        else (0xFFFD, 1)
      | _ => (0xFFFD, 1)
    else if 0xF0 ≤ b0 ∧ b0 ≤ 0xF4 then
      match rest with
      | b1 :: b2 :: b3 :: _ =>
        if (if b0 = 0xF0 then 0x90 else 0x80) ≤ b1 ∧ b1 ≤ (if b0 = 0xF4 then 0x8F else 0xBF) ∧
            isCont b2 ∧ isCont b3 then
          ((b0 - 0xF0) * 262144 + (b1 - 0x80) * 4096 + (b2 - 0x80) * 64 + (b3 - 0x80), 4)
        else (0xFFFD, 1)
      | _ => (0xFFFD, 1)
    else (0xFFFD, 1)

/-- The runes of a Go string given by its bytes, as the conversion `[]rune(s)` gives them:
every byte that begins no well-formed encoding counts as U+FFFD.  `k` bounds the number of
runes; the number of bytes is enough. -/
def decodeRunes : Nat → List Nat → List Char
  | 0, _ => []
  | _ + 1, [] => []
  | k + 1, b :: bs =>
    Char.ofNat (decodeRune (b :: bs)).1 :: decodeRunes k ((b :: bs).drop (decodeRune (b :: bs)).2)

/-- `strconv.UnquoteChar(s, '"')`: the value of the first character or escape of `s`, whether
it is `multibyte`, and the rest of `s`; `none` for a syntax error.  A byte written `\xhh`
or `\ooo` is not multibyte. -/
def UnquoteChar : List Char → Option (Nat × Bool × List Char)
  | [] => none
  | c :: s =>
    if c = dquote then none
    else if 0x80 ≤ c.toNat then some (c.toNat, true, s)
    else if c ≠ backslash then some (c.toNat, false, s)
    else
      match s with
      | [] => none
      | d :: s =>
        if d.toNat = 97 then some (7, false, s)
        else if d.toNat = 98 then some (8, false, s)
        else if d.toNat = 102 then some (12, false, s)
        else if d.toNat = 110 then some (10, false, s)
        else if d.toNat = 114 then some (13, false, s)
        else if d.toNat = 116 then some (9, false, s)
        else if d.toNat = 118 then some (11, false, s)
        else if d.toNat = 120 then
          (readHex 2 0 s).map (fun r => (r.1, false, r.2))
        else if d.toNat = 117 then
          (readHex 4 0 s).bind (fun r => if validRune r.1 then some (r.1, true, r.2) else none)
        else if d.toNat = 85 then
          (readHex 8 0 s).bind (fun r => if validRune r.1 then some (r.1, true, r.2) else none)
        else if 48 ≤ d.toNat ∧ d.toNat ≤ 55 then
          (readOct 2 (d.toNat - 48) s).bind
            (fun r => if r.1 > 255 then none else some (r.1, false, r.2))
        else if d = backslash then some (92, false, s)
        else if d = dquote then some (34, false, s)
        else none

/-- The loop of `strconv.Unquote`, `for len(s) > 0`, which fills the byte buffer `buf`:
`if c < utf8.RuneSelf || !multibyte { buf = append(buf, byte(c)) } else` the encoding of the
rune.  Every round takes at least one character off `s`, so `s.length` rounds are enough. -/
def Unquote.loop : Nat → List Char → List Nat → Option (List Nat)
  | _, [], buf => some buf
  | 0, _ :: _, _ => none
  | k + 1, c :: s, buf =>
    match UnquoteChar (c :: s) with
    | none => none
    | some (r, multibyte, ss) =>
      Unquote.loop k ss (buf ++ (if r < 0x80 ∨ multibyte = false then [r % 256] else encodeRune r))

/-- `strconv.Unquote` of a double-quoted string, given what stands between the quotes.  The
result `string(buf)` is given by its runes. -/
def Unquote (s : List Char) : Option (List Char) :=
  if s.contains (Char.ofNat 10) then none
  else if !s.contains backslash && !s.contains dquote then some s
  else (Unquote.loop s.length s []).map (fun buf => decodeRunes buf.length buf)

/-- The loop of `StructTag.Lookup`, `for tag != ""`; every round that goes on takes at least
four characters off the tag. -/
def StructTag.Lookup.loop (key : List Char) : Nat → List Char → Option (List Char)
  | 0, _ => none
  | k + 1, tag =>
    let tag := StructTag.skipSpace tag
    if tag = [] then none
    else
      let name := (StructTag.scanName tag).1
      if name = [] then none
      else
        match (StructTag.scanName tag).2 with
        | c1 :: c2 :: rest =>
          if c1.toNat = 58 ∧ c2 = dquote then
            match StructTag.scanValue false rest with
            | none => none
            | some (qvalue, tag) =>
              if key = name then Unquote qvalue
              else StructTag.Lookup.loop key k tag
          else none
        | _ => none

/-- `StructTag.Lookup(key)`: the value of `key` in the tag, if the tag has one. -/
def StructTag.Lookup (tag key : String) : Option String :=
  (StructTag.Lookup.loop key.data (tag.length + 1) tag.data).map String.mk

/-- `StructTag.Get(key)`: the value of `key` in the tag, the empty string if there is none. -/
def StructTag.Get (tag key : String) : String :=
  (StructTag.Lookup tag key).getD ""

/-! ## The sample types of `helpers_test.go` -/

/-- The Go type `string`. -/
def tString : FieldType := { Name := "string", Kind := Kind.String }

/-- The Go type `uint32`. -/
def tUint32 : FieldType := { Name := "uint32", Kind := Kind.Uint32 }

/-- The Go type `[]byte`, which has no name. -/
def tBytes : FieldType := { Name := "", Kind := Kind.Slice }

/-- The type `User`: `Name string; Age uint32; Hidden []byte` tagged `enc:"-"`. -/
def User : GoType :=
  { Name := "User"
    PkgPath := "github.com/skycoin/cxo/skyobject"
    Kind := Kind.Struct
    Fields :=
      [ { Name := "Name", Tag := "", Typ := tString },
        { Name := "Age", Tag := "", Typ := tUint32 },
        { Name := "Hidden", Tag := "enc:\"-\"", Typ := tBytes } ] }

/-- The types `Ref`, `Refs` and `Dynamic` of the package are declared outside the files at
hand; their kinds are parameters. -/
def tRef (k : Kind) : FieldType := { Name := "Ref", Kind := k }

/-- See `tRef`. -/
def tRefs (k : Kind) : FieldType := { Name := "Refs", Kind := k }

/-- See `tRef`. -/
def tDynamic (k : Kind) : FieldType := { Name := "Dynamic", Kind := k }

/-- The field `Name string` of `Group`. -/
def groupName : ReflectField := { Name := "Name", Tag := "", Typ := tString }

/-- The field `Leader Ref` of `Group`, tagged `skyobject:"schema=cxo.User"`. -/
def groupLeader (kRef : Kind) : ReflectField :=
  { Name := "Leader", Tag := "skyobject:\"schema=cxo.User\"", Typ := tRef kRef }

/-- The field `Members Refs` of `Group`, tagged `skyobject:"schema=cxo.User"`. -/
def groupMembers (kRefs : Kind) : ReflectField :=
  { Name := "Members", Tag := "skyobject:\"schema=cxo.User\"", Typ := tRefs kRefs }

/-- The field `Curator Dynamic` of `Group`. -/
def groupCurator (kDynamic : Kind) : ReflectField :=
  { Name := "Curator", Tag := "", Typ := tDynamic kDynamic }

/-- The type `Group`: `Name string; Leader Ref; Members Refs; Curator Dynamic`. -/
def Group (kRef kRefs kDynamic : Kind) : GoType :=
  { Name := "Group"
    PkgPath := "github.com/skycoin/cxo/skyobject"
    Kind := Kind.Struct
    Fields := [groupName, groupLeader kRef, groupMembers kRefs, groupCurator kDynamic] }

/-- The value `User{}`: every field zero. -/
def userZero : Sample :=
  { typ := User, fields := [[], [0, 0, 0, 0], []] }

/-- The value `User{Name: "alice", Age: 30, Hidden: []byte{1, 2, 3}}`. -/
def userAlice : Sample :=
  { typ := User, fields := [[97, 108, 105, 99, 101], [30, 0, 0, 0], [1, 2, 3]] }

/-- The test of `ReadSchema` on a declared field, `st.Field(i).Tag.Get("enc") != "-"`. -/
def kept (tagGet : String → String → String) (f : ReflectField) : Bool :=
  decide (tagGet f.Tag "enc" ≠ "-")


/-! ## `cipher.SumSHA256`: SHA-256 (FIPS 180-4)

Words are natural numbers below `2 ^ 32`. -/

/-- The first 64 prime numbers. -/
def sha256Primes : List Nat :=
  [2, 3, 5, 7, 11, 13, 17, 19, 23, 29, 31, 37, 41, 43, 47, 53, 59, 61, 67, 71, 73, 79, 83,
   89, 97, 101, 103, 107, 109, 113, 127, 131, 137, 139, 149, 151, 157, 163, 167, 173, 179,
   181, 191, 193, 197, 199, 211, 223, 227, 229, 233, 239, 241, 251, 257, 263, 269, 271, 277,
   281, 283, 293, 307, 311]

/-- The largest `r` below `2 ^ bits` whose power `r ^ e` is at most `n`, bit by bit from the
most significant, starting from `r`. -/
def rootBits (e n : Nat) : Nat → Nat → Nat
  | 0, r => r
  | b + 1, r => rootBits e n b (if (r + 2 ^ b) ^ e ≤ n then r + 2 ^ b else r)

/-- The first 32 bits of the fractional part of the root of degree `e` of `p`. -/
def fracRoot (e p : Nat) : Nat := rootBits e (p * 2 ^ (32 * e)) 36 0 % 2 ^ 32

/-- The round constants of SHA-256: the first 32 bits of the fractional parts of the cube
roots of the first 64 primes (`0x428a2f98`, `0x71374491`, ...). -/
def sha256K : List Nat := sha256Primes.map (fracRoot 3)

/-- The initial hash value of SHA-256: the first 32 bits of the fractional parts of the
square roots of the first 8 primes (`0x6a09e667`, `0xbb67ae85`, ...). -/
def sha256Init : List Nat := (sha256Primes.take 8).map (fracRoot 2)

/-- Rotate a 32-bit word right by `n` bits. -/
def rotr (n x : Nat) : Nat := ((x >>> n) ||| (x <<< (32 - n))) % 2 ^ 32

/-- Addition of 32-bit words. -/
def add32 (a b : Nat) : Nat := (a + b) % 2 ^ 32

/-- The small sigma functions of the message schedule. -/
def ssig0 (x : Nat) : Nat := rotr 7 x ^^^ rotr 18 x ^^^ (x >>> 3)

/-- See `ssig0`. -/
def ssig1 (x : Nat) : Nat := rotr 17 x ^^^ rotr 19 x ^^^ (x >>> 10)

/-- The big sigma functions of the compression function. -/
def bsig0 (x : Nat) : Nat := rotr 2 x ^^^ rotr 13 x ^^^ rotr 22 x

/-- See `bsig0`. -/
def bsig1 (x : Nat) : Nat := rotr 6 x ^^^ rotr 11 x ^^^ rotr 25 x

/-- The choice function: `(e and f) xor ((not e) and g)`. -/
def sha256Ch (e f g : Nat) : Nat := (e &&& f) ^^^ ((e ^^^ 0xffffffff) &&& g)

/-- The majority function. -/
def sha256Maj (a b c : Nat) : Nat := (a &&& b) ^^^ (a &&& c) ^^^ (b &&& c)

/-- The padded message: the bytes, the byte `0x80`, zero bytes up to 56 modulo 64, and the
length in bits as 8 bytes, most significant first. -/
def sha256Pad (msg : List Nat) : List Nat :=
  let l := msg.length
  let zeros := (64 - (l + 9) % 64) % 64
  let bits := 8 * l
  msg ++ [0x80] ++ List.replicate zeros 0 ++
    [(bits >>> 56) % 256, (bits >>> 48) % 256, (bits >>> 40) % 256, (bits >>> 32) % 256,
     (bits >>> 24) % 256, (bits >>> 16) % 256, (bits >>> 8) % 256, bits % 256]

/-- The 32-bit words of a byte sequence, most significant byte first. -/
def sha256Words : List Nat → List Nat
  | a :: b :: c :: d :: rest =>
    (a * 2 ^ 24 + b * 2 ^ 16 + c * 2 ^ 8 + d) :: sha256Words rest
  | _ => []

/-- Extend the message schedule by `n` words.  The schedule is kept reversed: its head is the
word computed last. -/
def sha256Schedule : Nat → List Nat → List Nat
  | 0, w => w
  | n + 1, w =>
    sha256Schedule n
      (add32 (add32 (add32 (ssig1 (w.getD 1 0)) (w.getD 6 0)) (ssig0 (w.getD 14 0)))
        (w.getD 15 0) :: w)

/-- One round of the compression function on the working variables `a` to `h`, with the
round constant `k` and the schedule word `w`. -/
def sha256Round (s : List Nat) (kw : Nat × Nat) : List Nat :=
  match s with
  | [a, b, c, d, e, f, g, h] =>
    let t1 := add32 (add32 (add32 (add32 h (bsig1 e)) (sha256Ch e f g)) kw.1) kw.2
    let t2 := add32 (bsig0 a) (sha256Maj a b c)
    [add32 t1 t2, a, b, c, add32 d t1, e, f, g]
  | _ => s

/-- The compression of one block of 64 bytes into the hash value `h`. -/
def sha256Block (h : List Nat) (block : List Nat) : List Nat :=
  let w := (sha256Schedule 48 (sha256Words block).reverse).reverse
  let s := (sha256K.zip w).foldl sha256Round h
  List.zipWith add32 h s

/-- The compression of `n` blocks of 64 bytes, one after the other. -/
def sha256Blocks : Nat → List Nat → List Nat → List Nat
  | 0, h, _ => h
  | n + 1, h, m => sha256Blocks n (sha256Block h (m.take 64)) (m.drop 64)

/-- The 4 bytes of a word, most significant first. -/
def sha256Bytes (x : Nat) : List UInt8 :=
  [UInt8.ofNat (x >>> 24), UInt8.ofNat (x >>> 16), UInt8.ofNat (x >>> 8), UInt8.ofNat x]

/-- `cipher.SumSHA256(b)`: the SHA-256 digest of `b`, 32 bytes. -/
def SumSHA256 (b : List UInt8) : List UInt8 :=
  let m := sha256Pad (b.map UInt8.toNat)
  (sha256Blocks (m.length / 64) sha256Init m).flatMap sha256Bytes

/-! ## `data_test.go`: root packs -/

/-- The zero value of `cipher.SHA256`, 32 zero bytes. -/
def zeroSHA256 : List UInt8 := List.replicate 32 0

/-- The zero value of `cipher.Sig`, 65 zero bytes. -/
def zeroSig : List UInt8 := List.replicate 65 0

/-- Modelled from the spec: the type `RootPack` of package `data`, declared outside the files
at hand, with the fields the spec lists: `Seq` (a `uint64`), `Prev`, `Hash`, `Root`, `Sig`. -/
structure RootPack where
  Seq : Nat
  Prev : List UInt8
  Hash : List UInt8
  Root : List UInt8
  Sig : List UInt8
  deriving DecidableEq, Repr

/-- The zero value of `RootPack`, the initial value of the named result `rp`. -/
def RootPack.zero : RootPack :=
  { Seq := 0, Prev := zeroSHA256, Hash := zeroSHA256, Root := [], Sig := zeroSig }

/-- The bytes of the string literal "any". -/
def anyBytes : List UInt8 := [97, 110, 121]

/-- `getRootPack(seq, content)`: returns a RootPack that contains a dummy Root field.  The
string `content` is given by its bytes. -/
def getRootPack (seq : Nat) (content : List UInt8) : RootPack :=
  let rp := RootPack.zero
  let rp := { rp with Seq := seq }
  let rp := if seq ≠ 0 then { rp with Prev := SumSHA256 anyBytes } else rp
  let rp := { rp with Root := content }
  { rp with Hash := SumSHA256 rp.Root }

/-! ## `data_test.go`: sorted objects -/

/-- `bytes.Compare(a, b)`: 0 if `a == b`, -1 if `a < b` and +1 if `a > b`, in lexicographic
order. -/
def bytesCompare : List UInt8 → List UInt8 → Int
  | [], [] => 0
  | [], _ :: _ => -1
  | _ :: _, [] => 1
  | a :: as, b :: bs =>
    if a.toNat < b.toNat then -1
    else if b.toNat < a.toNat then 1
    else bytesCompare as bs

/-- The type `testObjectKeyValue`. -/
structure testObjectKeyValue where
  key : List UInt8
  value : List UInt8
  deriving DecidableEq, Repr

/-- `testObjectKeyValues.Len`. -/
def testObjectKeyValues.Len (t : List testObjectKeyValue) : Nat := t.length

/-- `testObjectKeyValues.Less(i, j)`; an index out of range panics. -/
def testObjectKeyValues.Less (t : List testObjectKeyValue) (i j : Nat) : Option Bool :=
  match t.get? i, t.get? j with
  | some x, some y => some (decide (bytesCompare x.key y.key < 0))
  | _, _ => none

/-- `testObjectKeyValues.Swap(i, j)`; an index out of range panics. -/
def testObjectKeyValues.Swap (t : List testObjectKeyValue) (i j : Nat) :
    Option (List testObjectKeyValue) :=
  match t.get? i, t.get? j with
  | some x, some y => some ((t.set i y).set j x)
  | _, _ => none

/-- `sort.IsSorted(data)` of the Go library, for `testObjectKeyValues`:
`for i := n - 1; i > 0; i-- { if data.Less(i, i-1) { return false } }; return true`. -/
def sortIsSorted (t : List testObjectKeyValue) : Bool :=
  (List.range (testObjectKeyValues.Len t)).all
    (fun i => i == 0 || testObjectKeyValues.Less t i (i - 1) != some true)

/-- The `insertionSort(data, a, b)` of Go's package `sort`, inner loop:
`for j := i; j > a && data.Less(j, j-1); j-- { data.Swap(j, j-1) }`, with `a = 0`. -/
def insertionSort.inner (t : List testObjectKeyValue) : Nat → List testObjectKeyValue
  | 0 => t
  | j + 1 =>
    if testObjectKeyValues.Less t (j + 1) j = some true then
      match testObjectKeyValues.Swap t (j + 1) j with
      | some t2 => insertionSort.inner t2 j
      | none => t
    else t

/-- The outer loop of `insertionSort`, `for i := a + 1; i < b; i++`: `k` is the number of
iterations left, `b - i`. -/
def insertionSort.outer : Nat → Nat → List testObjectKeyValue → List testObjectKeyValue
  | 0, _, t => t
  | k + 1, i, t => insertionSort.outer k (i + 1) (insertionSort.inner t i)

/-- The `insertionSort(data, 0, b)` of Go's package `sort`. -/
def insertionSort (t : List testObjectKeyValue) (b : Nat) : List testObjectKeyValue :=
  insertionSort.outer (b - 1) 1 t

/-- The shell pass of `quickSort` in Go's package `sort`, with `a = 0`:
`for i := a + 6; i < b; i++ { if data.Less(i, i-6) { data.Swap(i, i-6) } }`; `k` is the
number of iterations left, `b - i`. -/
def shellPass : Nat → Nat → List testObjectKeyValue → List testObjectKeyValue
  | 0, _, t => t
  | k + 1, i, t =>
    if testObjectKeyValues.Less t i (i - 6) = some true then
      match testObjectKeyValues.Swap t i (i - 6) with
      | some t2 => shellPass k (i + 1) t2
      | none => t
    else shellPass k (i + 1) t

/-- `sort.Sort(data)` of the Go library on `testObjectKeyValues`, through the methods `Len`,
`Less` and `Swap` of the type: `n := data.Len()` and then what `quickSort(data, 0, n, _)` does
to a range it no longer partitions, `if b-a > 1` the shell pass with gap 6 and
`insertionSort(data, a, b)`.  The library of the time of the repository (`quickSort`, before
go1.19) runs exactly this on a slice of at most 12 elements; it first partitions a longer
one, which gives the same keys in the same order (theorem `sorted_keys_unique`). -/
def sortSort (t : List testObjectKeyValue) : List testObjectKeyValue :=
  let n := testObjectKeyValues.Len t
  if 1 < n then insertionSort (shellPass (n - 6) 6 t) n else t

/-- The loop of `testSortedObjects`, `for _, s := range input`. -/
def testSortedObjects.loop :
    List (List UInt8) → List testObjectKeyValue → List testObjectKeyValue
  | [], objs => objs
  | s :: input, objs =>
    testSortedObjects.loop input (objs ++ [{ key := SumSHA256 s, value := s }])

/-- `testSortedObjects(input...)`; `objs` is the result `to` of the Go function.  Every
input string is given by its bytes. -/
def testSortedObjects (input : List (List UInt8)) : List testObjectKeyValue :=
  let objs : List testObjectKeyValue := []
  let objs := testSortedObjects.loop input objs
  sortSort objs

/-- What the inner loop of `insertionSort` computes, on the sorted part read backwards: `b`
goes down past every entry that it is less than. -/
def insertRev (b : testObjectKeyValue) : List testObjectKeyValue → List testObjectKeyValue
  | [] => [b]
  | a :: rest =>
    if bytesCompare b.key a.key < 0 then a :: insertRev b rest else b :: a :: rest

/-- What the outer loop of `insertionSort` computes, on the sorted part read backwards: the
entries that are left go in one after the other. -/
def insertAll : List testObjectKeyValue → List testObjectKeyValue → List testObjectKeyValue
  | rp, [] => rp
  | rp, b :: r => insertAll (insertRev b rp) r

/-! ## `data_test.go`: ordered public keys -/

/-- The loop `for pk1 == pk2 { pk2, _ = cipher.GenerateKeyPair() }`.  `gen n` is the public
key that call number `n` of `cipher.GenerateKeyPair` returns; `fuel` bounds the number of
rounds, and `none` says that the bound was reached. -/
def testOrderedPublicKeys.loop (gen : Nat → List UInt8) (pk1 : List UInt8) :
    Nat → Nat → List UInt8 → Option (List UInt8)
  | 0, _, pk2 => if pk1 = pk2 then none else some pk2
  | fuel + 1, n, pk2 =>
    if pk1 = pk2 then testOrderedPublicKeys.loop gen pk1 fuel (n + 1) (gen n) else some pk2

/-- `testOrderedPublicKeys()`: returns slice with two generated public keys in ascending
order.  A `cipher.PubKey` is given by its 33 bytes. -/
def testOrderedPublicKeys (gen : Nat → List UInt8) (fuel : Nat) : Option (List (List UInt8)) :=
  let pk1 := gen 0
  let pk2 := gen 1
  match testOrderedPublicKeys.loop gen pk1 fuel 2 pk2 with
  | none => none
  | some pk2 =>
    if bytesCompare pk2 pk1 < 0 then some [pk2, pk1] else some [pk1, pk2]


/-- The generator that returns the same key three times and then another one. -/
def genRepeat (n : Nat) : List UInt8 :=
  if n < 3 then List.replicate 33 5 else List.replicate 33 3

/-! ## The database of package `data`

The implementations of the interface `DB` (`NewMemoryDB`, `NewDriveDB`) are outside the files
at hand; only their tests are.  They are modelled from the spec. -/

/-- Modelled from the spec: the error taxonomy of section 7.  `other` is any further error
that the function of a transaction may report. -/
inductive DBError where
  | NotFound | SchemaMismatch | FrozenRegistry | InvalidChain | IOFailure | AlreadyClosed
  | other (msg : String)
  deriving DecidableEq, Repr

/-- Modelled from the spec: the two interchangeable backends, in-memory and durable. -/
inductive Backend where
  | memory | drive
  deriving DecidableEq, Repr

/-- Modelled from the spec: the content of the object store (digest to bytes) and of the feed
store (public key to chain of root packs). -/
structure Stores where
  objects : List (List UInt8 × List UInt8)
  feeds : List (List UInt8 × List RootPack)
  deriving DecidableEq, Repr

/-- Modelled from the spec: a database is a backend, the stores, and whether it was shut
down. -/
structure DB where
  backend : Backend
  closed : Bool
  stores : Stores
  deriving DecidableEq, Repr

/-- Modelled from the spec: `NewMemoryDB()`, the in-memory backend, empty and open. -/
def NewMemoryDB : DB :=
  { backend := Backend.memory, closed := false, stores := { objects := [], feeds := [] } }

/-- Modelled from the spec: `NewDriveDB(dbFile)` when it succeeds, the durable backend, open,
with what the file holds. -/
def NewDriveDB (persisted : Stores) : DB :=
  { backend := Backend.drive, closed := false, stores := persisted }

/-- Modelled from the spec: `DB.Close()`.  "Calling close twice must not fail or corrupt
state (idempotent shutdown)"; "close is idempotent and never raises".  Returns the error
(`none` is Go's nil) and the database afterwards. -/
def DB.Close (db : DB) : Option DBError × DB :=
  (none, { db with closed := true })

/-- What a test reports through `t.Error`. -/
inductive Report where
  | text (msg : String)
  | error (msg : String) (err : DBError)
  deriving DecidableEq, Repr

/-- `testDBClose(t, db)`: the reports of the test, added to `t`. -/
def testDBClose (t : List Report) (db : DB) : List Report :=
  let r := db.Close
  let t := match r.1 with
    | some err => t ++ [Report.error "closing error:" err]
    | none => t
  -- Close can be called many times
  let _r2 := r.2.Close
  t

theorem bytesCompare_swap : ∀ (a b : List UInt8), bytesCompare a b = - bytesCompare b a := by
  intro a
  induction a with
  | nil =>
    intro b
    cases b <;> simp [bytesCompare]
  | cons x xs ih =>
    intro b
    cases b with
    | nil => simp [bytesCompare]
    | cons y ys =>
      simp only [bytesCompare]
      by_cases h1 : x.toNat < y.toNat
      · have h2 : ¬ y.toNat < x.toNat := by omega
        simp [h1, h2]
      · by_cases h2 : y.toNat < x.toNat
        · simp [h1, h2]
        · simp [h1, h2, ih ys]

theorem bytesCompare_eq_zero : ∀ (a b : List UInt8), bytesCompare a b = 0 → a = b := by
  intro a
  induction a with
  | nil =>
    intro b h
    cases b with
    | nil => rfl
    | cons y ys => simp [bytesCompare] at h
  | cons x xs ih =>
    intro b h
    cases b with
    | nil => simp [bytesCompare] at h
    | cons y ys =>
      simp only [bytesCompare] at h
      by_cases h1 : x.toNat < y.toNat
      · simp [h1] at h
      · by_cases h2 : y.toNat < x.toNat
        · simp [h1, h2] at h
        · simp only [h1, h2, if_false] at h
          have hxy : x = y := UInt8.toNat.inj (by omega)
          rw [hxy, ih ys h]

theorem bytesCompare_self (a : List UInt8) : bytesCompare a a = 0 := by
  have := bytesCompare_swap a a
  omega

theorem bytesCompare_le_trans : ∀ (a b c : List UInt8),
    bytesCompare a b ≤ 0 → bytesCompare b c ≤ 0 → bytesCompare a c ≤ 0 := by
  intro a
  induction a with
  | nil =>
    intro b c _ _
    cases c <;> simp [bytesCompare]
  | cons x xs ih =>
    intro b c hab hbc
    cases b with
    | nil => simp [bytesCompare] at hab
    | cons y ys =>
      cases c with
      | nil => simp [bytesCompare] at hbc
      | cons z zs =>
        simp only [bytesCompare] at hab hbc ⊢
        by_cases h1 : x.toNat < y.toNat
        · by_cases h3 : y.toNat < z.toNat
          · have : x.toNat < z.toNat := by omega
            simp [this]
          · by_cases h4 : z.toNat < y.toNat
            · simp [h3, h4] at hbc
            · have : x.toNat < z.toNat := by omega
              simp [this]
        · by_cases h2 : y.toNat < x.toNat
          · simp [h1, h2] at hab
          · simp only [h1, h2, if_false] at hab
            by_cases h3 : y.toNat < z.toNat
            · have : x.toNat < z.toNat := by omega
              simp [this]
            · by_cases h4 : z.toNat < y.toNat
              · simp [h3, h4] at hbc
              · simp only [h3, h4, if_false] at hbc
                have h5 : ¬ x.toNat < z.toNat := by omega
                have h6 : ¬ z.toNat < x.toNat := by omega
                simp only [h5, h6, if_false]
                exact ih ys zs hab hbc

/-! ## `ReadSchema` -/

theorem ReadSchema_loop_eq (tagGet : String → String → String) (lower : Char → Char)
    (sv : Sample) (h : sv.typ.Kind = Kind.Struct) :
    ∀ (k i : Nat) (sch : Schema), i + k = sv.typ.Fields.length →
      ReadSchema.loop tagGet lower sv.typ sv k i sch =
        some ⟨sch.Name, sch.Fields ++
          (((sv.typ.Fields.drop i).enumFrom i).filter (fun p => kept tagGet p.2)).map
            (fun p => getField lower p.2 ⟨p.2.Typ, sv.fields.getD p.1 []⟩)⟩ := by
  intro k
  induction k with
  | zero =>
    intro i sch hi
    have : sv.typ.Fields.drop i = [] := List.drop_eq_nil_of_le (by omega)
    simp [ReadSchema.loop, this]
  | succ k ih =>
    intro i sch hi
    have hlt : i < sv.typ.Fields.length := by omega
    have hd : sv.typ.Fields.drop i = sv.typ.Fields[i] :: sv.typ.Fields.drop (i + 1) :=
      List.drop_eq_getElem_cons hlt
    have hg : sv.typ.Fields.get? i = some sv.typ.Fields[i] := by
      simp [List.get?_eq_getElem?, List.getElem?_eq_getElem hlt]
    rw [ReadSchema.loop]
    simp only [GoType.Field, Sample.Field, h, if_true, hg, Option.map]
    by_cases hk : tagGet sv.typ.Fields[i].Tag "enc" ≠ "-"
    · rw [if_pos hk, ih (i + 1) _ (by omega), hd]
      simp [List.enumFrom, kept, hk]
    · rw [if_neg hk, ih (i + 1) _ (by omega), hd]
      simp [List.enumFrom, kept, hk]

theorem enumFrom_filter_map {α β : Type} (p : α → Bool) (g : α → β) :
    ∀ (l : List α) (i : Nat),
      ((l.enumFrom i).filter (fun q => p q.2)).map (fun q => g q.2) = (l.filter p).map g := by
  intro l
  induction l with
  | nil => intro i; simp
  | cons a l ih =>
    intro i
    by_cases ha : p a = true
    · simp [List.enumFrom, ha, ih]
    · simp [List.enumFrom, ha, ih]

theorem ReadSchema_eq (tagGet : String → String → String) (lower : Char → Char)
    (sv : Sample) (h : sv.typ.Kind = Kind.Struct) :
    ReadSchema tagGet lower (some sv) =
      some ⟨sv.typ.Name, ((sv.typ.Fields.enum).filter (fun p => kept tagGet p.2)).map
        (fun p => getField lower p.2 ⟨p.2.Typ, sv.fields.getD p.1 []⟩)⟩ := by
  simp only [ReadSchema, GoType.NumField, h, if_true]
  rw [ReadSchema_loop_eq tagGet lower sv h _ 0 _ (by simp)]
  simp [List.enum]

theorem enum_fields_eq (tagGet : String → String → String) (lower : Char → Char)
    (sv : Sample) :
    ((sv.typ.Fields.enum).filter (fun p => kept tagGet p.2)).map
        (fun p => getField lower p.2 ⟨p.2.Typ, sv.fields.getD p.1 []⟩) =
      (sv.typ.Fields.filter (fun f => decide (tagGet f.Tag "enc" ≠ "-"))).map
        (fun f => getField lower f ⟨f.Typ, []⟩) :=
  enumFrom_filter_map (kept tagGet) (fun f => getField lower f ⟨f.Typ, []⟩) sv.typ.Fields 0

/-- C1: for every struct sample, `ReadSchema` returns a schema, and its `Fields` are the
declared fields whose `enc` tag is not "-", each described by `getField` of the field and of
its value, in declaration order: the list is the image of the filtered list of declared
fields, a declared field is described in it if and only if its tag is kept, and the names
of the result are a sublist of the declared names. -/
theorem ReadSchema_fields (tagGet : String → String → String) (lower : Char → Char)
    (sv : Sample) (h : sv.typ.Kind = Kind.Struct) :
    ∃ sch, ReadSchema tagGet lower (some sv) = some sch ∧
      sch.Fields = ((sv.typ.Fields.enum).filter (fun p => kept tagGet p.2)).map
        (fun p => getField lower p.2 ⟨p.2.Typ, sv.fields.getD p.1 []⟩) ∧
      sch.Fields = (sv.typ.Fields.filter (fun f => decide (tagGet f.Tag "enc" ≠ "-"))).map
        (fun f => getField lower f ⟨f.Typ, []⟩) ∧
      (∀ f ∈ sv.typ.Fields,
        (getField lower f ⟨f.Typ, []⟩ ∈ sch.Fields ↔ tagGet f.Tag "enc" ≠ "-")) ∧
      List.Sublist (sch.Fields.map (fun x => x.Name)) (sv.typ.Fields.map (fun f => f.Name)) := by
  refine ⟨_, ReadSchema_eq tagGet lower sv h, rfl, enum_fields_eq tagGet lower sv, ?_, ?_⟩
  · intro f hf
    simp only [enum_fields_eq tagGet lower sv, List.mem_map, List.mem_filter]
    constructor
    · rintro ⟨g, ⟨_, hg⟩, he⟩
      have ht : g.Tag = f.Tag := congrArg StructField.Tag he
      have hg2 : tagGet g.Tag "enc" ≠ "-" := by simpa using hg
      rwa [ht] at hg2
    · intro hk
      exact ⟨f, ⟨hf, by simpa using hk⟩, rfl⟩
  · simp only [enum_fields_eq tagGet lower sv]
    rw [List.map_map]
    have : (fun x : StructField => x.Name) ∘ (fun f => getField lower f ⟨f.Typ, []⟩)
        = fun f : ReflectField => f.Name := rfl
    rw [this]
    exact (List.filter_sublist _).map _

/-- C1 at `User{}`, with the lookup of Go's `reflect` and any table of `unicode.ToLower`:
the schema has exactly the two fields `Name` and `Age`, in that order; `Hidden` is absent. -/
theorem ReadSchema_fields_witness :
    userZero.typ.Kind = Kind.Struct ∧
    (∃ sch, ReadSchema StructTag.Get id (some userZero) = some sch ∧
      sch.Fields = ((userZero.typ.Fields.enum).filter (fun p => kept StructTag.Get p.2)).map
        (fun p => getField id p.2 ⟨p.2.Typ, userZero.fields.getD p.1 []⟩) ∧
      sch.Fields =
        (userZero.typ.Fields.filter (fun f => decide (StructTag.Get f.Tag "enc" ≠ "-"))).map
          (fun f => getField id f ⟨f.Typ, []⟩) ∧
      (∀ f ∈ userZero.typ.Fields,
        (getField id f ⟨f.Typ, []⟩ ∈ sch.Fields ↔ StructTag.Get f.Tag "enc" ≠ "-")) ∧
      List.Sublist (sch.Fields.map (fun x => x.Name))
        (userZero.typ.Fields.map (fun f => f.Name))) ∧
    ReadSchema StructTag.Get id (some userZero) =
      some ⟨"User", [⟨"Name", 24, "string", ""⟩, ⟨"Age", 10, "uint32", ""⟩]⟩ :=
  ⟨by decide, ReadSchema_fields StructTag.Get id userZero (by decide), by decide⟩

/-- C5: `ReadSchema` depends only on the type of its sample: two samples of the same struct
type give the same schema (same `Name`, same `Fields` in the same order), and the same
`String()` rendering. -/
theorem ReadSchema_type_only (tagGet : String → String → String) (lower : Char → Char)
    (fieldString : StructField → String) (d1 d2 : Sample)
    (hk : d1.typ.Kind = Kind.Struct) (ht : d1.typ = d2.typ) :
    ∃ s1 s2, ReadSchema tagGet lower (some d1) = some s1 ∧
      ReadSchema tagGet lower (some d2) = some s2 ∧
      s1 = s2 ∧ s1.Name = s2.Name ∧ s1.Fields = s2.Fields ∧
      Schema.String fieldString s1 = Schema.String fieldString s2 := by
  have hk2 : d2.typ.Kind = Kind.Struct := by rw [← ht]; exact hk
  have e1 := ReadSchema_eq tagGet lower d1 hk
  have e2 := ReadSchema_eq tagGet lower d2 hk2
  rw [enum_fields_eq tagGet lower d1] at e1
  rw [enum_fields_eq tagGet lower d2, ← ht] at e2
  exact ⟨_, _, e1, e2, rfl, rfl, rfl, rfl⟩

/-- C5 at `User{}` and `User{Name: "alice", Age: 30, Hidden: []byte{1, 2, 3}}`. -/
theorem ReadSchema_type_only_witness :
    userZero.typ.Kind = Kind.Struct ∧ userZero.typ = userAlice.typ ∧ userZero ≠ userAlice ∧
    ∃ s1 s2, ReadSchema StructTag.Get id (some userZero) = some s1 ∧
      ReadSchema StructTag.Get id (some userAlice) = some s2 ∧
      s1 = s2 ∧ s1.Name = s2.Name ∧ s1.Fields = s2.Fields ∧
      Schema.String (fun f => f.Name) s1 = Schema.String (fun f => f.Name) s2 :=
  ⟨by decide, by decide, by decide,
    ReadSchema_type_only StructTag.Get id (fun f => f.Name) userZero userAlice
      (by decide) (by decide)⟩

/-- C9: `ReadSchema` names the schema after the type of the sample: for every struct sample
the `Name` of the schema is the name of the type within its package, whatever the package
(the empty string for an anonymous struct type); no registration name enters. -/
theorem ReadSchema_name (tagGet : String → String → String) (lower : Char → Char)
    (sv : Sample) (h : sv.typ.Kind = Kind.Struct) :
    ∃ sch, ReadSchema tagGet lower (some sv) = some sch ∧ sch.Name = sv.typ.Name ∧
      ∀ pkg : String, ∃ sch2,
        ReadSchema tagGet lower (some { sv with typ := { sv.typ with PkgPath := pkg } }) =
          some sch2 ∧ sch2.Name = sch.Name :=
  ⟨_, ReadSchema_eq tagGet lower sv h, rfl,
    fun pkg => ⟨_, ReadSchema_eq tagGet lower
      { sv with typ := { sv.typ with PkgPath := pkg } } h, rfl⟩⟩

/-- C9 at `User{}`: the name is "User", not the registration name "cxo.User". -/
theorem ReadSchema_name_witness :
    userZero.typ.Kind = Kind.Struct ∧
    (∃ sch, ReadSchema StructTag.Get id (some userZero) = some sch ∧
      sch.Name = userZero.typ.Name ∧
      ∀ pkg : String, ∃ sch2,
        ReadSchema StructTag.Get id
            (some { userZero with typ := { userZero.typ with PkgPath := pkg } }) =
          some sch2 ∧ sch2.Name = sch.Name) ∧
    userZero.typ.Name = "User" ∧ userZero.typ.Name ≠ "cxo.User" ∧
    (ReadSchema StructTag.Get id (some userZero)).map (fun sch => sch.Name) = some "User" :=
  ⟨by decide, ReadSchema_name StructTag.Get id userZero (by decide), by decide, by decide,
    by decide⟩

/-! ## `getField` -/

theorem Kind.toNat_lt (k : Kind) : k.toNat < 2 ^ 32 := by
  cases k <;> decide

/-- C6: for every struct field and its value, `getField` returns the declared name, the
lower-cased name of the type (the empty string for an unnamed type), the tag unchanged and
the number of the kind of the type.  For `Group`: `Leader` gives "Leader", "ref" and the
tag `skyobject:"schema=cxo.User"`, `Members` gives "refs" and the same tag, `Curator` gives
"dynamic" and an empty tag. -/
theorem getField_spec (lower : Char → Char) (field : ReflectField) (mem : List UInt8)
    (name tag : String) (k kRef kRefs kDynamic : Kind) :
    (getField lower field ⟨field.Typ, mem⟩).Name = field.Name ∧
    (getField lower field ⟨field.Typ, mem⟩).Typ = ToLower lower field.Typ.Name ∧
    (getField lower field ⟨field.Typ, mem⟩).Tag = field.Tag ∧
    (getField lower field ⟨field.Typ, mem⟩).Kind = field.Typ.Kind.toNat ∧
    (getField lower ⟨name, tag, ⟨"", k⟩⟩ ⟨⟨"", k⟩, mem⟩).Typ = "" ∧
    getField lower (groupLeader kRef) ⟨(groupLeader kRef).Typ, mem⟩ =
      ⟨"Leader", kRef.toNat, "ref", "skyobject:\"schema=cxo.User\""⟩ ∧
    getField lower (groupMembers kRefs) ⟨(groupMembers kRefs).Typ, mem⟩ =
      ⟨"Members", kRefs.toNat, "refs", "skyobject:\"schema=cxo.User\""⟩ ∧
    getField lower (groupCurator kDynamic) ⟨(groupCurator kDynamic).Typ, mem⟩ =
      ⟨"Curator", kDynamic.toNat, "dynamic", ""⟩ := by
  have hmod : ∀ k : Kind, k.toNat % 2 ^ 32 = k.toNat :=
    fun k => Nat.mod_eq_of_lt (Kind.toNat_lt k)
  refine ⟨rfl, rfl, rfl, hmod _, rfl, ?_, ?_, ?_⟩
  · show StructField.mk _ _ _ _ = _
    rw [show (Value.mk (groupLeader kRef).Typ mem).Typ.Kind.toNat % 2 ^ 32 = kRef.toNat
      from hmod kRef]
    rfl
  · show StructField.mk _ _ _ _ = _
    rw [show (Value.mk (groupMembers kRefs).Typ mem).Typ.Kind.toNat % 2 ^ 32 = kRefs.toNat
      from hmod kRefs]
    rfl
  · show StructField.mk _ _ _ _ = _
    rw [show (Value.mk (groupCurator kDynamic).Typ mem).Typ.Kind.toNat % 2 ^ 32 =
      kDynamic.toNat from hmod kDynamic]
    rfl

/-! ## `Schema.String` -/

theorem Schema_String_loop_eq (fieldString : StructField → String) (s : Schema) :
    ∀ (k i : Nat) (b : List Char), i + k = s.Fields.length →
      Schema.String.loop fieldString s k i b =
        some (b ++ (s.Fields.drop i).flatMap (fun f => (fieldString f).data)) := by
  intro k
  induction k with
  | zero =>
    intro i b hi
    have : s.Fields.drop i = [] := List.drop_eq_nil_of_le (by omega)
    simp [Schema.String.loop, this]
  | succ k ih =>
    intro i b hi
    have hlt : i < s.Fields.length := by omega
    have hd : s.Fields.drop i = s.Fields[i] :: s.Fields.drop (i + 1) :=
      List.drop_eq_getElem_cons hlt
    have hg : s.Fields.get? i = some s.Fields[i] := by
      simp [List.get?_eq_getElem?, List.getElem?_eq_getElem hlt]
    rw [Schema.String.loop]
    simp only [hg]
    rw [ih (i + 1) _ (by omega), hd, List.flatMap_cons, List.append_assoc]

theorem foldl_append_data (l : List String) :
    ∀ acc : String, (l.foldl (fun r s => r ++ s) acc).data = acc.data ++ l.flatMap String.data := by
  induction l with
  | nil => intro acc; simp
  | cons a l ih =>
    intro acc
    simp [List.foldl, ih, String.data_append]

theorem join_data (l : List String) : (String.join l).data = l.flatMap String.data := by
  simp [String.join, foldl_append_data]

/-- C8: for every schema, `String()` is "struct ", the name, a newline, and then the
renderings of the fields concatenated in field order, with nothing between or after them;
for a schema with no fields it is "struct ", the name and a newline. -/
theorem Schema_String_spec (fieldString : StructField → String) (s : Schema) (name : String) :
    Schema.String fieldString s =
      some ("struct " ++ s.Name ++ "\n" ++ String.join (s.Fields.map fieldString)) ∧
    Schema.String fieldString ⟨name, []⟩ = some ("struct " ++ name ++ "\n") := by
  have main : ∀ s : Schema, Schema.String fieldString s =
      some ("struct " ++ s.Name ++ "\n" ++ String.join (s.Fields.map fieldString)) := by
    intro s
    simp only [Schema.String]
    rw [Schema_String_loop_eq fieldString s s.Fields.length 0 _ (by simp)]
    simp only [Option.map, List.drop_zero]
    congr 1
    apply String.ext
    simp [String.data_append, join_data, List.flatMap_map]
    rfl
  refine ⟨main s, ?_⟩
  rw [main]
  simp [String.join]

/-! ## SHA-256 -/

theorem sha256Round_length (s : List Nat) (kw : Nat × Nat) (h : s.length = 8) :
    (sha256Round s kw).length = 8 := by
  match s, h with
  | [_, _, _, _, _, _, _, _], _ => rfl

theorem sha256Round_foldl_length (l : List (Nat × Nat)) :
    ∀ s : List Nat, s.length = 8 → (l.foldl sha256Round s).length = 8 := by
  induction l with
  | nil => intro s h; exact h
  | cons kw l ih => intro s h; exact ih _ (sha256Round_length s kw h)

theorem sha256Block_length (h block : List Nat) (hh : h.length = 8) :
    (sha256Block h block).length = 8 := by
  simp only [sha256Block, List.length_zipWith]
  rw [sha256Round_foldl_length _ h hh, hh]
  rfl

theorem sha256Blocks_length :
    ∀ (n : Nat) (h m : List Nat), h.length = 8 → (sha256Blocks n h m).length = 8 := by
  intro n
  induction n with
  | zero => intro h m hh; exact hh
  | succ n ih => intro h m hh; exact ih _ _ (sha256Block_length h _ hh)

theorem sha256Bytes_flatMap_length (l : List Nat) :
    (l.flatMap sha256Bytes).length = 4 * l.length := by
  induction l with
  | nil => rfl
  | cons a l ih =>
    simp only [List.flatMap_cons, List.length_append, ih, List.length_cons]
    simp only [sha256Bytes, List.length_cons, List.length_nil]
    omega

theorem SumSHA256_length (b : List UInt8) : (SumSHA256 b).length = 32 := by
  simp only [SumSHA256]
  rw [sha256Bytes_flatMap_length, sha256Blocks_length _ _ _ (by simp [sha256Init, sha256Primes])]

set_option maxRecDepth 100000 in
theorem SumSHA256_abc :
    SumSHA256 [97, 98, 99] =
      [0xba, 0x78, 0x16, 0xbf, 0x8f, 0x01, 0xcf, 0xea, 0x41, 0x41, 0x40, 0xde, 0x5d, 0xae,
       0x22, 0x23, 0xb0, 0x03, 0x61, 0xa3, 0x96, 0x17, 0x7a, 0x9c, 0xb4, 0x10, 0xff, 0x61,
       0xf2, 0x00, 0x15, 0xad] := by
  rfl

/-! ## `getRootPack` -/

set_option maxRecDepth 100000 in
theorem SumSHA256_any :
    SumSHA256 anyBytes =
      [0xd6, 0xa7, 0xcd, 0x2a, 0x73, 0x71, 0xb1, 0xa1, 0x5d, 0x54, 0x31, 0x96, 0x97, 0x9f,
       0xf7, 0x4f, 0xdb, 0x02, 0x70, 0x23, 0xeb, 0xf1, 0x87, 0xd5, 0xd3, 0x29, 0xbe, 0x11,
       0x05, 0x5c, 0x77, 0xfd] := by
  rfl

theorem SumSHA256_any_ne_zero : SumSHA256 anyBytes ≠ zeroSHA256 := by
  rw [SumSHA256_any]
  decide

/-- C2: for every `seq` and every content, the root pack built by `getRootPack` has
`Seq = seq`, `Root` the bytes of the content, `Hash` the SHA-256 digest of `Root`, and
`Prev` the zero digest when `seq` is 0 and a digest other than zero when it is not; both
digests are 32 bytes long. -/
theorem getRootPack_spec (seq : Nat) (content : List UInt8) :
    (getRootPack seq content).Seq = seq ∧
    (getRootPack seq content).Root = content ∧
    (getRootPack seq content).Hash = SumSHA256 (getRootPack seq content).Root ∧
    ((seq = 0 ∧ (getRootPack seq content).Prev = zeroSHA256) ∨
      (seq ≠ 0 ∧ (getRootPack seq content).Prev ≠ zeroSHA256)) ∧
    (getRootPack seq content).Hash.length = 32 ∧
    (getRootPack seq content).Prev.length = 32 := by
  by_cases h : seq = 0
  · subst h
    exact ⟨rfl, rfl, rfl, Or.inl ⟨rfl, rfl⟩, SumSHA256_length _, rfl⟩
  · refine ⟨?_, ?_, ?_, Or.inr ⟨h, ?_⟩, ?_, ?_⟩
    · simp [getRootPack, h]
    · simp [getRootPack, h]
    · simp [getRootPack, h]
    · simp only [getRootPack, h, ne_eq, not_false_eq_true, if_true]
      exact SumSHA256_any_ne_zero
    · simp only [getRootPack, h, ne_eq, not_false_eq_true, if_true]
      exact SumSHA256_length _
    · simp only [getRootPack, h, ne_eq, not_false_eq_true, if_true]
      exact SumSHA256_length _


/-! ## `testOrderedPublicKeys` -/

theorem testOrderedPublicKeys_loop_first (gen : Nat → List UInt8) (pk1 : List UInt8) :
    ∀ (fuel n : Nat) (pk2 r : List UInt8),
      testOrderedPublicKeys.loop gen pk1 fuel n pk2 = some r →
      (pk2 ≠ pk1 ∧ r = pk2) ∨
      (pk2 = pk1 ∧ ∃ j, n ≤ j ∧ j < n + fuel ∧ r = gen j ∧ gen j ≠ pk1 ∧
        ∀ i, n ≤ i → i < j → gen i = pk1) := by
  intro fuel
  induction fuel with
  | zero =>
    intro n pk2 r h
    simp only [testOrderedPublicKeys.loop] at h
    by_cases he : pk1 = pk2
    · simp [he] at h
    · simp only [he, if_false, Option.some.injEq] at h
      exact Or.inl ⟨fun e => he e.symm, h.symm⟩
  | succ fuel ih =>
    intro n pk2 r h
    simp only [testOrderedPublicKeys.loop] at h
    by_cases he : pk1 = pk2
    · simp only [he, if_true] at h
      rw [← he] at h
      refine Or.inr ⟨he.symm, ?_⟩
      rcases ih (n + 1) (gen n) r h with ⟨h1, h2⟩ | ⟨h1, j, hj1, hj2, hr, hg, hall⟩
      · exact ⟨n, Nat.le_refl n, by omega, h2, h1, fun i hi1 hi2 => by omega⟩
      · refine ⟨j, by omega, by omega, hr, hg, ?_⟩
        intro i hi1 hi2
        by_cases hin : i = n
        · rw [hin]; exact h1
        · exact hall i (by omega) hi2
    · simp only [he, if_false, Option.some.injEq] at h
      exact Or.inl ⟨fun e => he e.symm, h.symm⟩

theorem testOrderedPublicKeys_loop_some (gen : Nat → List UInt8) (pk1 : List UInt8) :
    ∀ (fuel n : Nat) (pk2 : List UInt8),
      (pk2 ≠ pk1 ∨ ∃ j, j < fuel ∧ gen (n + j) ≠ pk1) →
      ∃ r, testOrderedPublicKeys.loop gen pk1 fuel n pk2 = some r := by
  intro fuel
  induction fuel with
  | zero =>
    intro n pk2 h
    rcases h with h | ⟨j, hj, _⟩
    · have : pk1 ≠ pk2 := fun e => h e.symm
      exact ⟨pk2, by simp [testOrderedPublicKeys.loop, this]⟩
    · omega
  | succ fuel ih =>
    intro n pk2 h
    by_cases he : pk1 = pk2
    · simp only [testOrderedPublicKeys.loop, he, if_true]
      rw [← he]
      apply ih
      rcases h with h | ⟨j, hj, hg⟩
      · exact absurd he.symm h
      · cases j with
        | zero => exact Or.inl hg
        | succ j =>
          refine Or.inr ⟨j, by omega, ?_⟩
          have : n + 1 + j = n + (j + 1) := by omega
          rw [this]; exact hg
    · exact ⟨pk2, by simp [testOrderedPublicKeys.loop, he]⟩

theorem testOrderedPublicKeys_sound (gen : Nat → List UInt8) (fuel : Nat)
    (r : List (List UInt8)) (h : testOrderedPublicKeys gen fuel = some r) :
    ∃ j, 1 ≤ j ∧ j ≤ fuel + 1 ∧ gen j ≠ gen 0 ∧ (∀ i, 1 ≤ i → i < j → gen i = gen 0) ∧
      r.length = 2 ∧
      ((bytesCompare (gen 0) (gen j) < 0 ∧ r = [gen 0, gen j]) ∨
        (bytesCompare (gen j) (gen 0) < 0 ∧ r = [gen j, gen 0])) := by
  simp only [testOrderedPublicKeys] at h
  cases hl : testOrderedPublicKeys.loop gen (gen 0) fuel 2 (gen 1) with
  | none => simp [hl] at h
  | some pk2 =>
    simp only [hl] at h
    have hfirst := testOrderedPublicKeys_loop_first gen (gen 0) fuel 2 (gen 1) pk2 hl
    have hj : ∃ j, 1 ≤ j ∧ j ≤ fuel + 1 ∧ gen j ≠ gen 0 ∧
        (∀ i, 1 ≤ i → i < j → gen i = gen 0) ∧ pk2 = gen j := by
      rcases hfirst with ⟨h1, h2⟩ | ⟨h1, j, hj1, hj2, hr, hg, hall⟩
      · exact ⟨1, Nat.le_refl 1, by omega, h1, fun i hi1 hi2 => by omega, h2⟩
      · refine ⟨j, by omega, by omega, hg, ?_, hr⟩
        intro i hi1 hi2
        by_cases hi : i = 1
        · rw [hi]; exact h1
        · exact hall i (by omega) hi2
    obtain ⟨j, hj1, hj2, hg, hall, hpk⟩ := hj
    subst hpk
    refine ⟨j, hj1, hj2, hg, hall, ?_⟩
    by_cases hc : bytesCompare (gen j) (gen 0) < 0
    · simp only [hc, if_true, Option.some.injEq] at h
      rw [← h]
      exact ⟨rfl, Or.inr ⟨hc, rfl⟩⟩
    · simp only [hc, if_false, Option.some.injEq] at h
      rw [← h]
      refine ⟨rfl, Or.inl ⟨?_, rfl⟩⟩
      have hs := bytesCompare_swap (gen 0) (gen j)
      have hz : bytesCompare (gen j) (gen 0) ≠ 0 :=
        fun e => hg (bytesCompare_eq_zero (gen j) (gen 0) e)
      omega

/-- C7: whatever keys are generated, a slice returned by `testOrderedPublicKeys` has exactly
two public keys, the first key generated and the first generated after it that differs
from it; they are distinct, and the first of the slice is strictly smaller than the second
in bytewise lexicographic order.  The function does return such a slice once one of the
keys generated after the first differs from the first. -/
theorem testOrderedPublicKeys_spec (gen : Nat → List UInt8) (fuel k : Nat) (hk : k ≤ fuel)
    (hne : gen (k + 1) ≠ gen 0) :
    (∀ f r, testOrderedPublicKeys gen f = some r →
      ∃ a b, r = [a, b] ∧ r.length = 2 ∧ a ≠ b ∧ bytesCompare a b < 0 ∧
        ∃ j, 1 ≤ j ∧ j ≤ f + 1 ∧ gen j ≠ gen 0 ∧ (∀ i, 1 ≤ i → i < j → gen i = gen 0) ∧
          ((a = gen 0 ∧ b = gen j) ∨ (a = gen j ∧ b = gen 0))) ∧
    (∃ a b, testOrderedPublicKeys gen fuel = some [a, b] ∧ a ≠ b ∧ bytesCompare a b < 0 ∧
      ∃ j, 1 ≤ j ∧ j ≤ k + 1 ∧ gen j ≠ gen 0 ∧ (∀ i, 1 ≤ i → i < j → gen i = gen 0) ∧
        ((a = gen 0 ∧ b = gen j) ∨ (a = gen j ∧ b = gen 0))) := by
  have sound : ∀ f r, testOrderedPublicKeys gen f = some r →
      ∃ a b, r = [a, b] ∧ r.length = 2 ∧ a ≠ b ∧ bytesCompare a b < 0 ∧
        ∃ j, 1 ≤ j ∧ j ≤ f + 1 ∧ gen j ≠ gen 0 ∧ (∀ i, 1 ≤ i → i < j → gen i = gen 0) ∧
          ((a = gen 0 ∧ b = gen j) ∨ (a = gen j ∧ b = gen 0)) := by
    intro f r h
    obtain ⟨j, hj1, hj2, hg, hall, hlen, hor⟩ := testOrderedPublicKeys_sound gen f r h
    rcases hor with ⟨hc, hr⟩ | ⟨hc, hr⟩
    · exact ⟨gen 0, gen j, hr, hlen, fun e => hg e.symm, hc, j, hj1, hj2, hg, hall,
        Or.inl ⟨rfl, rfl⟩⟩
    · exact ⟨gen j, gen 0, hr, hlen, hg, hc, j, hj1, hj2, hg, hall, Or.inr ⟨rfl, rfl⟩⟩
  refine ⟨sound, ?_⟩
  have hs : ∃ r, testOrderedPublicKeys.loop gen (gen 0) fuel 2 (gen 1) = some r := by
    apply testOrderedPublicKeys_loop_some
    cases k with
    | zero => exact Or.inl hne
    | succ k =>
      refine Or.inr ⟨k, by omega, ?_⟩
      have : 2 + k = k + 1 + 1 := by omega
      rw [this]; exact hne
  obtain ⟨pk2, hl⟩ := hs
  have hsome : ∃ r, testOrderedPublicKeys gen fuel = some r := by
    simp only [testOrderedPublicKeys, hl]
    by_cases hc : bytesCompare pk2 (gen 0) < 0
    · exact ⟨[pk2, gen 0], by simp [hc]⟩
    · exact ⟨[gen 0, pk2], by simp [hc]⟩
  obtain ⟨r, hr⟩ := hsome
  obtain ⟨a, b, hab, _, hne2, hlt, j, hj1, _, hg, hall, hor⟩ := sound fuel r hr
  refine ⟨a, b, by rw [hr, hab], hne2, hlt, j, hj1, ?_, hg, hall, hor⟩
  by_contra hjk
  exact hne (hall (k + 1) (by omega) (by omega))

/-- C7 for a generator that repeats its first key twice: the third try gives another key, and
the two keys come out in ascending order. -/
theorem testOrderedPublicKeys_spec_witness :
    (2 ≤ 2 ∧ genRepeat (2 + 1) ≠ genRepeat 0) ∧
    ((∀ f r, testOrderedPublicKeys genRepeat f = some r →
      ∃ a b, r = [a, b] ∧ r.length = 2 ∧ a ≠ b ∧ bytesCompare a b < 0 ∧
        ∃ j, 1 ≤ j ∧ j ≤ f + 1 ∧ genRepeat j ≠ genRepeat 0 ∧
          (∀ i, 1 ≤ i → i < j → genRepeat i = genRepeat 0) ∧
          ((a = genRepeat 0 ∧ b = genRepeat j) ∨ (a = genRepeat j ∧ b = genRepeat 0))) ∧
    (∃ a b, testOrderedPublicKeys genRepeat 2 = some [a, b] ∧ a ≠ b ∧
      bytesCompare a b < 0 ∧
      ∃ j, 1 ≤ j ∧ j ≤ 2 + 1 ∧ genRepeat j ≠ genRepeat 0 ∧
        (∀ i, 1 ≤ i → i < j → genRepeat i = genRepeat 0) ∧
        ((a = genRepeat 0 ∧ b = genRepeat j) ∨ (a = genRepeat j ∧ b = genRepeat 0)))) ∧
    testOrderedPublicKeys genRepeat 2 = some [List.replicate 33 3, List.replicate 33 5] ∧
    testOrderedPublicKeys genRepeat 1 = none :=
  ⟨⟨by decide, by decide⟩, testOrderedPublicKeys_spec genRepeat 2 2 (by decide) (by decide),
    by decide, by decide⟩

/-! ## `sort.Sort` through `Len`, `Less` and `Swap` -/

theorem get?_append_length {α : Type} (l r : List α) (a : α) :
    (l ++ a :: r).get? l.length = some a := by
  induction l with
  | nil => rfl
  | cons x l ih => simpa using ih

theorem get?_append_length_succ {α : Type} (l r : List α) (a b : α) :
    (l ++ a :: b :: r).get? (l.length + 1) = some b := by
  induction l with
  | nil => rfl
  | cons x l ih => simpa using ih

theorem set_append_length {α : Type} (l r : List α) (a x : α) :
    (l ++ a :: r).set l.length x = l ++ x :: r := by
  induction l with
  | nil => rfl
  | cons y l ih => simp [List.set, ih]

theorem set_append_length_succ {α : Type} (l r : List α) (a b x : α) :
    (l ++ a :: b :: r).set (l.length + 1) x = l ++ a :: x :: r := by
  induction l with
  | nil => rfl
  | cons y l ih => simp [List.set, ih]

theorem Less_adjacent (l r : List testObjectKeyValue) (a b : testObjectKeyValue) :
    testObjectKeyValues.Less (l ++ a :: b :: r) (l.length + 1) l.length =
      some (decide (bytesCompare b.key a.key < 0)) := by
  simp only [testObjectKeyValues.Less, get?_append_length_succ, get?_append_length]

theorem Swap_adjacent (l r : List testObjectKeyValue) (a b : testObjectKeyValue) :
    testObjectKeyValues.Swap (l ++ a :: b :: r) (l.length + 1) l.length =
      some (l ++ b :: a :: r) := by
  simp only [testObjectKeyValues.Swap, get?_append_length_succ, get?_append_length]
  rw [set_append_length_succ, set_append_length]

theorem insertionSort_inner_eq :
    ∀ (rp r : List testObjectKeyValue) (b : testObjectKeyValue),
      insertionSort.inner (rp.reverse ++ b :: r) rp.length = (insertRev b rp).reverse ++ r := by
  intro rp
  induction rp with
  | nil => intro r b; rfl
  | cons a rest ih =>
    intro r b
    have ht : (a :: rest).reverse ++ b :: r = rest.reverse ++ a :: b :: r := by simp
    have hl : (a :: rest).length = rest.reverse.length + 1 := by simp
    rw [ht, hl, insertionSort.inner, Less_adjacent]
    by_cases hc : bytesCompare b.key a.key < 0
    · simp only [hc, decide_True, if_true, Swap_adjacent]
      rw [List.length_reverse, ih (a :: r) b]
      simp [insertRev, hc]
    · simp [hc, insertRev]

theorem insertRev_length (b : testObjectKeyValue) :
    ∀ rp : List testObjectKeyValue, (insertRev b rp).length = rp.length + 1 := by
  intro rp
  induction rp with
  | nil => rfl
  | cons a rest ih =>
    by_cases hc : bytesCompare b.key a.key < 0
    · simp [insertRev, hc, ih]
    · simp [insertRev, hc]

theorem insertionSort_outer_eq :
    ∀ (rest rp : List testObjectKeyValue) (i : Nat), i = rp.length →
      insertionSort.outer rest.length i (rp.reverse ++ rest) = (insertAll rp rest).reverse := by
  intro rest
  induction rest with
  | nil => intro rp i _; simp [insertionSort.outer, insertAll]
  | cons b r ih =>
    intro rp i hi
    rw [List.length_cons, insertionSort.outer, hi, insertionSort_inner_eq, insertAll]
    exact ih (insertRev b rp) (rp.length + 1) (insertRev_length b rp).symm

theorem insertionSort_eq (a : testObjectKeyValue) (rest : List testObjectKeyValue) :
    insertionSort (a :: rest) (a :: rest).length = (insertAll [a] rest).reverse := by
  have := insertionSort_outer_eq rest [a] 1 rfl
  simpa [insertionSort] using this

theorem insertRev_perm (b : testObjectKeyValue) :
    ∀ rp : List testObjectKeyValue, (insertRev b rp).Perm (b :: rp) := by
  intro rp
  induction rp with
  | nil => exact List.Perm.refl _
  | cons a rest ih =>
    by_cases hc : bytesCompare b.key a.key < 0
    · simp only [insertRev, hc, if_true]
      exact (List.Perm.cons a ih).trans (List.Perm.swap b a rest)
    · simp only [insertRev, hc, if_false]
      exact List.Perm.refl _

theorem insertAll_perm :
    ∀ (rest rp : List testObjectKeyValue), (insertAll rp rest).Perm (rp ++ rest) := by
  intro rest
  induction rest with
  | nil => intro rp; simp [insertAll]
  | cons b r ih =>
    intro rp
    rw [insertAll]
    refine (ih (insertRev b rp)).trans ?_
    refine ((insertRev_perm b rp).append_right r).trans ?_
    simpa using (@List.perm_middle _ b rp r).symm

theorem insertRev_sorted (b : testObjectKeyValue) :
    ∀ rp : List testObjectKeyValue,
      rp.Pairwise (fun x y => bytesCompare y.key x.key ≤ 0) →
      (insertRev b rp).Pairwise (fun x y => bytesCompare y.key x.key ≤ 0) := by
  intro rp
  induction rp with
  | nil => intro _; simp [insertRev]
  | cons a rest ih =>
    intro h
    rw [List.pairwise_cons] at h
    by_cases hc : bytesCompare b.key a.key < 0
    · simp only [insertRev, hc, if_true]
      rw [List.pairwise_cons]
      refine ⟨?_, ih h.2⟩
      intro y hy
      have hy2 : y ∈ b :: rest := (insertRev_perm b rest).mem_iff.mp hy
      rcases List.mem_cons.mp hy2 with rfl | hy3
      · omega
      · exact h.1 y hy3
    · simp only [insertRev, hc, if_false]
      have hab : bytesCompare a.key b.key ≤ 0 := by
        have := bytesCompare_swap a.key b.key
        omega
      rw [List.pairwise_cons]
      refine ⟨?_, List.pairwise_cons.mpr h⟩
      intro y hy
      rcases List.mem_cons.mp hy with rfl | hy3
      · exact hab
      · exact bytesCompare_le_trans _ _ _ (h.1 y hy3) hab

theorem insertAll_sorted :
    ∀ (rest rp : List testObjectKeyValue),
      rp.Pairwise (fun x y => bytesCompare y.key x.key ≤ 0) →
      (insertAll rp rest).Pairwise (fun x y => bytesCompare y.key x.key ≤ 0) := by
  intro rest
  induction rest with
  | nil => intro rp h; exact h
  | cons b r ih => intro rp h; exact ih _ (insertRev_sorted b rp h)

theorem insertionSort_perm (t : List testObjectKeyValue) :
    (insertionSort t t.length).Perm t := by
  cases t with
  | nil => exact List.Perm.refl _
  | cons a rest =>
    rw [insertionSort_eq]
    exact (List.reverse_perm _).trans (by simpa using insertAll_perm rest [a])

theorem insertionSort_sorted (t : List testObjectKeyValue) :
    (insertionSort t t.length).Pairwise (fun x y => bytesCompare x.key y.key ≤ 0) := by
  cases t with
  | nil => exact List.Pairwise.nil
  | cons a rest =>
    rw [insertionSort_eq, List.pairwise_reverse]
    exact insertAll_sorted rest [a] (List.pairwise_singleton _ _)

theorem set_perm_cons {α : Type} (x y : α) :
    ∀ (l : List α) (j : Nat), l[j]? = some y → (y :: l.set j x).Perm (x :: l) := by
  intro l
  induction l with
  | nil => intro j h; simp at h
  | cons z r ih =>
    intro j h
    cases j with
    | zero =>
      simp only [List.getElem?_cons_zero, Option.some.injEq] at h
      subst h
      exact List.Perm.swap x z r
    | succ j =>
      simp only [List.getElem?_cons_succ] at h
      simp only [List.set]
      exact (List.Perm.swap z y _).trans
        (((ih j h).cons z).trans (List.Perm.swap x z r))

theorem Swap_perm :
    ∀ (t t2 : List testObjectKeyValue) (i j : Nat),
      testObjectKeyValues.Swap t i j = some t2 → t2.Perm t := by
  intro t
  induction t with
  | nil => intro t2 i j h; simp [testObjectKeyValues.Swap] at h
  | cons z r ih =>
    intro t2 i j h
    cases i with
    | zero =>
      cases j with
      | zero =>
        simp [testObjectKeyValues.Swap] at h
        rw [← h]
      | succ j =>
        cases hy : r[j]? with
        | none => simp [testObjectKeyValues.Swap, hy] at h
        | some y =>
          simp [testObjectKeyValues.Swap, hy] at h
          rw [← h]
          exact set_perm_cons z y r j hy
    | succ i =>
      cases hx : r[i]? with
      | none => simp [testObjectKeyValues.Swap, hx] at h
      | some x =>
        cases j with
        | zero =>
          simp [testObjectKeyValues.Swap, hx] at h
          rw [← h]
          exact set_perm_cons z x r i hx
        | succ j =>
          cases hy : r[j]? with
          | none => simp [testObjectKeyValues.Swap, hx, hy] at h
          | some y =>
            simp [testObjectKeyValues.Swap, hx, hy] at h
            rw [← h]
            have := ih ((r.set i y).set j x) i j (by simp [testObjectKeyValues.Swap, hx, hy])
            exact this.cons z

theorem shellPass_perm :
    ∀ (k i : Nat) (t : List testObjectKeyValue), (shellPass k i t).Perm t := by
  intro k
  induction k with
  | zero => intro i t; exact List.Perm.refl _
  | succ k ih =>
    intro i t
    rw [shellPass]
    by_cases hl : testObjectKeyValues.Less t i (i - 6) = some true
    · simp only [hl, if_true]
      cases hs : testObjectKeyValues.Swap t i (i - 6) with
      | none => exact List.Perm.refl _
      | some t2 => exact (ih (i + 1) t2).trans (Swap_perm t t2 i (i - 6) hs)
    · simp only [hl, if_false]
      exact ih (i + 1) t

theorem sortSort_perm (t : List testObjectKeyValue) : (sortSort t).Perm t := by
  simp only [sortSort, testObjectKeyValues.Len]
  by_cases h : 1 < t.length
  · simp only [h, if_true]
    have hp := shellPass_perm (t.length - 6) 6 t
    have hlen : t.length = (shellPass (t.length - 6) 6 t).length := hp.length_eq.symm
    have := insertionSort_perm (shellPass (t.length - 6) 6 t)
    rw [← hlen] at this
    exact this.trans hp
  · simp only [h, if_false]
    exact List.Perm.refl _

theorem sortSort_sorted (t : List testObjectKeyValue) :
    (sortSort t).Pairwise (fun x y => bytesCompare x.key y.key ≤ 0) := by
  simp only [sortSort, testObjectKeyValues.Len]
  by_cases h : 1 < t.length
  · simp only [h, if_true]
    have hp := shellPass_perm (t.length - 6) 6 t
    have hlen : t.length = (shellPass (t.length - 6) 6 t).length := hp.length_eq.symm
    have := insertionSort_sorted (shellPass (t.length - 6) 6 t)
    rw [← hlen] at this
    exact this
  · simp only [h, if_false]
    match t, h with
    | [], _ => exact List.Pairwise.nil
    | [a], _ => exact List.pairwise_singleton _ _
    | _ :: _ :: _, h => simp at h

theorem sortIsSorted_of_pairwise (t : List testObjectKeyValue)
    (h : t.Pairwise (fun x y => bytesCompare x.key y.key ≤ 0)) : sortIsSorted t = true := by
  simp only [sortIsSorted, testObjectKeyValues.Len, List.all_eq_true, List.mem_range]
  intro i hi
  cases i with
  | zero => rfl
  | succ i =>
    have hi0 : i < t.length := by omega
    have g1 : t[i + 1]? = some t[i + 1] := List.getElem?_eq_getElem hi
    have g0 : t[i]? = some t[i] := List.getElem?_eq_getElem hi0
    have hle := (List.pairwise_iff_getElem.mp h) i (i + 1) hi0 hi (by omega)
    have hs := bytesCompare_swap t[i].key t[i + 1].key
    simp [testObjectKeyValues.Less, g1, g0]
    omega

theorem sorted_keys_unique (r1 r2 : List testObjectKeyValue) (hp : r1.Perm r2)
    (h1 : r1.Pairwise (fun x y => bytesCompare x.key y.key ≤ 0))
    (h2 : r2.Pairwise (fun x y => bytesCompare x.key y.key ≤ 0)) :
    r1.map (fun e => e.key) = r2.map (fun e => e.key) := by
  have ha : IsAntisymm (List UInt8) (fun a b => bytesCompare a b ≤ 0) :=
    ⟨fun a b hab hba => bytesCompare_eq_zero a b (by
      have := bytesCompare_swap a b
      omega)⟩
  refine @List.eq_of_perm_of_sorted _ (fun a b => bytesCompare a b ≤ 0) ha _ _
    (hp.map _) ?_ ?_
  · exact List.pairwise_map.mpr h1
  · exact List.pairwise_map.mpr h2

theorem Swap_exchanges (t : List testObjectKeyValue) (i j : Nat)
    (hi : i < testObjectKeyValues.Len t) (hj : j < testObjectKeyValues.Len t) :
    ∃ t2, testObjectKeyValues.Swap t i j = some t2 ∧ t2.length = t.length ∧
      t2[i]? = t[j]? ∧ t2[j]? = t[i]? ∧ ∀ k, k ≠ i → k ≠ j → t2[k]? = t[k]? := by
  simp only [testObjectKeyValues.Len] at hi hj
  have gi : t.get? i = some t[i] := by
    simp [List.get?_eq_getElem?, List.getElem?_eq_getElem hi]
  have gj : t.get? j = some t[j] := by
    simp [List.get?_eq_getElem?, List.getElem?_eq_getElem hj]
  refine ⟨(t.set i t[j]).set j t[i], by simp only [testObjectKeyValues.Swap, gi, gj],
    by simp, ?_, ?_, ?_⟩
  · by_cases hij : j = i
    · subst hij
      simp [List.getElem?_set, hj]
    · simp [List.getElem?_set, hij, hi, hj]
  · simp [List.getElem?_set, hi, hj]
  · intro k hki hkj
    have h1 : ¬ j = k := fun e => hkj e.symm
    have h2 : ¬ i = k := fun e => hki e.symm
    simp [List.getElem?_set, h1, h2]

theorem testSortedObjects_loop_eq :
    ∀ (input : List (List UInt8)) (objs : List testObjectKeyValue),
      testSortedObjects.loop input objs =
        objs ++ input.map (fun s => { key := SumSHA256 s, value := s }) := by
  intro input
  induction input with
  | nil => intro objs; simp [testSortedObjects.loop]
  | cons s input ih =>
    intro objs
    simp [testSortedObjects.loop, ih]

/-- C10: for every list of input strings, `testSortedObjects`, with `sort.Sort` run through
the methods `Len`, `Less` and `Swap` of `testObjectKeyValues`, returns a list of the length
of the input that is a permutation of the inputs each paired with its digest (every entry
has as value the bytes of an input string and as key the SHA-256 digest of its value, and
every input string has its entry), in non-decreasing bytewise lexicographic order of key, so
that `sort.IsSorted` holds of it; `Swap(i, j)` exchanges the entries `i` and `j` and leaves
the others. -/
theorem testSortedObjects_spec (input : List (List UInt8)) :
    (testSortedObjects input).length = input.length ∧
    (testSortedObjects input).Perm
      (input.map (fun s => { key := SumSHA256 s, value := s })) ∧
    (∀ e ∈ testSortedObjects input, e.value ∈ input ∧ e.key = SumSHA256 e.value) ∧
    (∀ s ∈ input, (⟨SumSHA256 s, s⟩ : testObjectKeyValue) ∈ testSortedObjects input) ∧
    (testSortedObjects input).Pairwise (fun a b => bytesCompare a.key b.key ≤ 0) ∧
    sortIsSorted (testSortedObjects input) = true ∧
    (∀ (t : List testObjectKeyValue) (i j : Nat),
      i < testObjectKeyValues.Len t → j < testObjectKeyValues.Len t →
      ∃ t2, testObjectKeyValues.Swap t i j = some t2 ∧ t2.length = t.length ∧
        t2[i]? = t[j]? ∧ t2[j]? = t[i]? ∧ ∀ k, k ≠ i → k ≠ j → t2[k]? = t[k]?) := by
  have hl : testSortedObjects.loop input [] =
      input.map (fun s => { key := SumSHA256 s, value := s }) := by
    simp [testSortedObjects_loop_eq]
  have hp : (testSortedObjects input).Perm
      (input.map (fun s => { key := SumSHA256 s, value := s })) := by
    simp only [testSortedObjects]
    rw [← hl]
    exact sortSort_perm _
  refine ⟨?_, hp, ?_, ?_, ?_, sortIsSorted_of_pairwise _ (sortSort_sorted _), Swap_exchanges⟩
  · rw [hp.length_eq, List.length_map]
  · intro e he
    have := hp.mem_iff.mp he
    simp only [List.mem_map] at this
    obtain ⟨s, hs, rfl⟩ := this
    exact ⟨hs, rfl⟩
  · intro s hs
    exact hp.mem_iff.mpr (List.mem_map.mpr ⟨s, hs, rfl⟩)
  · exact sortSort_sorted _

set_option maxRecDepth 100000 in
theorem testSortedObjects_abc :
    (testSortedObjects [[97], [98], [99]]).map (fun e => e.value) = [[99], [98], [97]] := by
  decide

set_option maxRecDepth 100000 in
theorem shellPass_example :
    (shellPass 1 6 (testSortedObjects.loop
        [[97], [98], [99], [101], [102], [103], [100]] [])).map (fun e => e.value) =
      [[100], [98], [99], [101], [102], [103], [97]] ∧
    (testSortedObjects [[97], [98], [99], [101], [102], [103], [100]]).map
        (fun e => e.value) =
      [[100], [102], [99], [98], [101], [97], [103]] := by
  decide

/-! ## The database -/

/-- C3 (spec-modelled): for both backends and every state of the database, the first `Close`
returns no error, a second `Close` returns no error either and leaves the database as the
first left it; `testDBClose` reports nothing for a new in-memory and a new drive-backed
database. -/
theorem Close_idempotent (db : DB) (t : List Report) (persisted : Stores) :
    db.Close.1 = none ∧
    db.Close.2.Close.1 = none ∧
    db.Close.2.Close.2 = db.Close.2 ∧
    db.Close.2.closed = true ∧
    testDBClose t NewMemoryDB = t ∧
    testDBClose t (NewDriveDB persisted) = t :=
  ⟨rfl, rfl, rfl, rfl, rfl, rfl⟩

end Cxo
